import Mathlib

/-!
Verification of the Monte-Carlo optics program `MC_Optics.py`.

The program searches for a minimum-optical-path-length trajectory by a
perturb-and-accept loop over an array `y` of vertical coordinates, then
measures the refraction angle at an interface and compares with Snell's law.

Shallow embedding conventions:
* numpy float arithmetic is idealized as real arithmetic (`ℝ`);
* the arrays `x` and `y` are `List ℝ`; a numpy read that would raise
  `IndexError`/`ValueError` is modelled by an `Option`/`Except` failure;
* the two random draws of a step (`choice(range(1,N-1))` and `normal()`)
  are oracle inputs: a natural number `u` feeding the uniform index choice
  and a real `gauss` standing for the standard-normal sample;
* the module-level globals `N` and `dx` that `niterate` reads (it does not
  derive them from its arguments) are collected in a `Globals` structure
  passed separately from the `x`/`y` arguments.
-/

namespace MCOptics

/-- Module-level globals read by `niterate`: the point count `N` and the
fixed horizontal spacing `dx` (source lines 51, 62). -/
structure Globals where
  N : ℕ
  dx : ℝ

/-- `range(1, N-1)`: the interior indices `1, …, N-2` that `choice` draws
from (source line 90). Empty when `N < 3`. -/
def interiorRange (N : ℕ) : List ℕ :=
  List.range' 1 (N - 2)

/-- `choice(range(1,N-1))` with its uniform draw replaced by an oracle
`u : ℕ`: pick the `u mod (N-2)`-th interior index. `none` models the
`ValueError` that `choice` raises on an empty range. -/
def chooseIdx (N : ℕ) (u : ℕ) : Option ℕ :=
  (interiorRange N).get? (u % (interiorRange N).length)

/-- The pair returned by `niterate` (a changed flag and the progress
metric), together with the in-place updated `y` array made explicit. -/
structure StepResult where
  changed : Bool
  y : List ℝ
  metric : ℝ

/-- `abs(y[1:]-y[:-1]).sum()` (source line 104): sum of absolute
differences of neighboring `y` values. -/
def sumAbsDiff (y : List ℝ) : ℝ :=
  ((y.zip y.tail).map (fun p => |p.2 - p.1|)).sum

/-- One step of the MC algorithm, `niterate` (source lines 72–104).
`x`, `y` are the arrays passed as arguments; `g` holds the module globals
`N` and `dx` the function actually reads; `nf` is the index-of-refraction
function; `u` and `gauss` are the two random draws. `none` models a raised
exception: an empty `choice` range, a failed 3-element unpack of
`y[ix-1:ix+2]`, or an out-of-range read of `x`. -/
noncomputable def niterate (g : Globals) (x y : List ℝ) (nf : ℝ → ℝ) (delta : ℝ)
    (u : ℕ) (gauss : ℝ) : Option StepResult :=
  match chooseIdx g.N u with
  | none => none
  | some ix =>
    match x.get? (ix - 1), x.get? ix, y.get? (ix - 1), y.get? ix, y.get? (ix + 1) with
    | some xa, some xm, some ya, some yc, some yb =>
      let opi := Real.sqrt ((ya - yc) ^ 2 + g.dx ^ 2) * nf xa
                   + Real.sqrt ((yc - yb) ^ 2 + g.dx ^ 2) * nf xm
      let yc' := yc + gauss * delta
      let opf := Real.sqrt ((ya - yc') ^ 2 + g.dx ^ 2) * nf xa
                   + Real.sqrt ((yc' - yb) ^ 2 + g.dx ^ 2) * nf xm
      if opf < opi then
        some ⟨true, y.set ix yc', sumAbsDiff (y.set ix yc')⟩
      else
        some ⟨false, y, sumAbsDiff y⟩
    | _, _, _, _, _ => none

theorem interiorRange_mem {N i : ℕ} (h : i ∈ interiorRange N) :
    1 ≤ i ∧ i ≤ N - 2 := by
  unfold interiorRange at h
  rw [List.mem_range'] at h
  obtain ⟨j, hj, rfl⟩ := h
  omega

theorem chooseIdx_mem {N u ix : ℕ} (h : chooseIdx N u = some ix) :
    ix ∈ interiorRange N := by
  unfold chooseIdx at h
  exact List.get?_mem h

/-- The chosen index is always an interior one: `1 ≤ ix ≤ N-2`. -/
theorem chooseIdx_bounds {N u ix : ℕ} (h : chooseIdx N u = some ix) :
    1 ≤ ix ∧ ix ≤ N - 2 :=
  interiorRange_mem (chooseIdx_mem h)

theorem interiorRange_length (N : ℕ) : (interiorRange N).length = N - 2 := by
  simp [interiorRange]

/-- For `N ≥ 3` the choice always succeeds. -/
theorem chooseIdx_isSome {N : ℕ} (hN : 3 ≤ N) (u : ℕ) :
    (chooseIdx N u).isSome = true := by
  unfold chooseIdx
  rw [Option.isSome_iff_exists]
  have hlen : (interiorRange N).length = N - 2 := interiorRange_length N
  have hpos : 0 < (interiorRange N).length := by omega
  have hlt : u % (interiorRange N).length < (interiorRange N).length :=
    Nat.mod_lt _ hpos
  rcases List.get?_eq_get hlt with h
  exact ⟨_, h⟩

/-- For `N < 3` the interior range is empty and the choice fails
(`choice` raises on an empty range). -/
theorem chooseIdx_none {N : ℕ} (hN : N < 3) (u : ℕ) :
    chooseIdx N u = none := by
  have hlen : (interiorRange N).length = N - 2 := interiorRange_length N
  unfold chooseIdx
  apply List.get?_eq_none.mpr
  omega

/-- The local optical path length around index `ix` as the spec states it:
`sqrt((y_{ix-1}-y_ix)^2+dx^2)*nf(x_{ix-1}) + sqrt((y_ix-y_{ix+1})^2+dx^2)*nf(x_ix)`,
the index being sampled at the left endpoint of each segment. -/
noncomputable def localLen (nf : ℝ → ℝ) (dx : ℝ) (x y : List ℝ) (ix : ℕ) : ℝ :=
  Real.sqrt ((y.getD (ix - 1) 0 - y.getD ix 0) ^ 2 + dx ^ 2) * nf (x.getD (ix - 1) 0)
    + Real.sqrt ((y.getD ix 0 - y.getD (ix + 1) 0) ^ 2 + dx ^ 2) * nf (x.getD ix 0)

/-- The progress metric as the spec states it: the sum of `|y_{i+1} - y_i|`
over adjacent pairs of the trajectory. -/
noncomputable def specMetric (y : List ℝ) : ℝ :=
  ∑ i in Finset.range (y.length - 1), |y.getD (i + 1) 0 - y.getD i 0|

theorem sumAbsDiff_nil : sumAbsDiff [] = 0 := rfl

theorem sumAbsDiff_singleton (a : ℝ) : sumAbsDiff [a] = 0 := by
  simp [sumAbsDiff]

theorem sumAbsDiff_cons_cons (a b : ℝ) (l : List ℝ) :
    sumAbsDiff (a :: b :: l) = |b - a| + sumAbsDiff (b :: l) := by
  simp [sumAbsDiff]

theorem specMetric_cons_cons (a b : ℝ) (l : List ℝ) :
    specMetric (a :: b :: l) = |b - a| + specMetric (b :: l) := by
  unfold specMetric
  have hlen : (a :: b :: l).length - 1 = ((b :: l).length - 1) + 1 := by simp
  rw [hlen, Finset.sum_range_succ']
  have h0 : |(a :: b :: l).getD (0 + 1) 0 - (a :: b :: l).getD 0 0| = |b - a| := rfl
  have hs : ∀ i, |(a :: b :: l).getD (i + 1 + 1) 0 - (a :: b :: l).getD (i + 1) 0|
      = |(b :: l).getD (i + 1) 0 - (b :: l).getD i 0| := fun i => rfl
  rw [h0, Finset.sum_congr rfl (fun i _ => hs i)]
  exact add_comm _ _

/-- The value `abs(y[1:]-y[:-1]).sum()` the code returns is the sum of
absolute neighboring differences the spec describes. -/
theorem sumAbsDiff_eq_specMetric (y : List ℝ) : sumAbsDiff y = specMetric y := by
  induction y with
  | nil => simp [sumAbsDiff, specMetric]
  | cons a l ih =>
    cases l with
    | nil => simp [sumAbsDiff, specMetric]
    | cons b l' =>
      rw [sumAbsDiff_cons_cons, specMetric_cons_cons, ih]

/-- Characterization of a successful `niterate` call in terms of the values
read from the arrays. -/
theorem niterate_char (g : Globals) (x y : List ℝ) (nf : ℝ → ℝ) (delta : ℝ)
    (u : ℕ) (gauss : ℝ) {ix : ℕ} {xa xm ya yc yb : ℝ}
    (hch : chooseIdx g.N u = some ix)
    (hxa : x.get? (ix - 1) = some xa) (hxm : x.get? ix = some xm)
    (hya : y.get? (ix - 1) = some ya) (hyc : y.get? ix = some yc)
    (hyb : y.get? (ix + 1) = some yb) :
    niterate g x y nf delta u gauss =
      if Real.sqrt ((ya - (yc + gauss * delta)) ^ 2 + g.dx ^ 2) * nf xa
           + Real.sqrt ((yc + gauss * delta - yb) ^ 2 + g.dx ^ 2) * nf xm
         < Real.sqrt ((ya - yc) ^ 2 + g.dx ^ 2) * nf xa
           + Real.sqrt ((yc - yb) ^ 2 + g.dx ^ 2) * nf xm
      then some ⟨true, y.set ix (yc + gauss * delta),
                 sumAbsDiff (y.set ix (yc + gauss * delta))⟩
      else some ⟨false, y, sumAbsDiff y⟩ := by
  simp only [niterate, hch, hxa, hxm, hya, hyc, hyb]

/-- `localLen` in terms of the values read from the arrays. -/
theorem localLen_eq (nf : ℝ → ℝ) (dx : ℝ) (x y : List ℝ) {ix : ℕ}
    {xa xm ya yc yb : ℝ}
    (hxa : x.get? (ix - 1) = some xa) (hxm : x.get? ix = some xm)
    (hya : y.get? (ix - 1) = some ya) (hyc : y.get? ix = some yc)
    (hyb : y.get? (ix + 1) = some yb) :
    localLen nf dx x y ix =
      Real.sqrt ((ya - yc) ^ 2 + dx ^ 2) * nf xa
        + Real.sqrt ((yc - yb) ^ 2 + dx ^ 2) * nf xm := by
  unfold localLen
  rw [List.getD_eq_getD_get?, List.getD_eq_getD_get?, List.getD_eq_getD_get?,
    List.getD_eq_getD_get?, List.getD_eq_getD_get?, hxa, hxm, hya, hyc, hyb]
  rfl

theorem get?_set_of_interior {y : List ℝ} {ix : ℕ} (hix : 1 ≤ ix) (v : ℝ)
    {yc : ℝ} (hyc : y.get? ix = some yc) :
    (y.set ix v).get? (ix - 1) = y.get? (ix - 1) ∧
    (y.set ix v).get? ix = some v ∧
    (y.set ix v).get? (ix + 1) = y.get? (ix + 1) := by
  have hlt : ix < y.length := by
    by_contra hge
    rw [List.get?_eq_none.mpr (Nat.le_of_not_lt hge)] at hyc
    exact Option.noConfusion hyc
  exact ⟨List.get?_set_ne _ _ (by omega), List.get?_set_eq_of_lt _ hlt,
    List.get?_set_ne _ _ (by omega)⟩

/-- C1: For every trajectory with at least 3 points and every `delta > 0`,
a single `niterate` call draws an interior index `ix ∈ [1, N-2]` from the
uniform choice oracle, computes the current local optical path length as
`sqrt((y_{ix-1}-y_ix)^2+dx^2)*nf(x_{ix-1}) + sqrt((y_ix-y_{ix+1})^2+dx^2)*nf(x_ix)`
(index sampled at the left endpoint of each segment), proposes
`y_ix + gauss*delta` with `gauss` the standard-normal oracle sample,
recomputes the same formula with the proposed value, accepts iff the new
length is strictly smaller, and returns the accepted flag together with
the sum of `|y_{i+1}-y_i|` over the (possibly updated) trajectory. -/
theorem niterate_single_step_spec (g : Globals) (x y : List ℝ) (nf : ℝ → ℝ)
    (delta : ℝ) (u : ℕ) (gauss : ℝ)
    (hN : 3 ≤ g.N) (hx : x.length = g.N) (hy : y.length = g.N) (_hdelta : 0 < delta) :
    ∃ ix r, chooseIdx g.N u = some ix ∧ 1 ≤ ix ∧ ix ≤ g.N - 2 ∧
      niterate g x y nf delta u gauss = some r ∧
      (r.changed = true ↔
        localLen nf g.dx x (y.set ix (y.getD ix 0 + gauss * delta)) ix
          < localLen nf g.dx x y ix) ∧
      r.y = (if localLen nf g.dx x (y.set ix (y.getD ix 0 + gauss * delta)) ix
                < localLen nf g.dx x y ix
             then y.set ix (y.getD ix 0 + gauss * delta) else y) ∧
      r.metric = specMetric r.y := by
  obtain ⟨ix, hch⟩ := Option.isSome_iff_exists.mp (chooseIdx_isSome hN u)
  obtain ⟨h1, h2⟩ := chooseIdx_bounds hch
  have hxa' : ix - 1 < x.length := by omega
  have hxm' : ix < x.length := by omega
  have hya' : ix - 1 < y.length := by omega
  have hyc' : ix < y.length := by omega
  have hyb' : ix + 1 < y.length := by omega
  have hxa := List.get?_eq_get hxa'
  have hxm := List.get?_eq_get hxm'
  have hya := List.get?_eq_get hya'
  have hyc := List.get?_eq_get hyc'
  have hyb := List.get?_eq_get hyb'
  have hgetD : y.getD ix 0 = y.get ⟨ix, hyc'⟩ := by
    rw [List.getD_eq_getD_get?, hyc]; rfl
  have hchar := niterate_char g x y nf delta u gauss hch hxa hxm hya hyc hyb
  have hset := get?_set_of_interior h1 (y.get ⟨ix, hyc'⟩ + gauss * delta) hyc
  have hLcur := localLen_eq nf g.dx x y hxa hxm hya hyc hyb
  have hLnew := localLen_eq nf g.dx x (y.set ix (y.get ⟨ix, hyc'⟩ + gauss * delta))
    hxa hxm (hset.1.trans hya) hset.2.1 (hset.2.2.trans hyb)
  rw [← hLnew, ← hLcur] at hchar
  rw [← hgetD] at hchar
  by_cases hlt : localLen nf g.dx x (y.set ix (y.getD ix 0 + gauss * delta)) ix
      < localLen nf g.dx x y ix
  · rw [if_pos hlt] at hchar
    exact ⟨ix, _, hch, h1, h2, hchar, iff_of_true rfl hlt, (if_pos hlt).symm,
      sumAbsDiff_eq_specMetric _⟩
  · rw [if_neg hlt] at hchar
    exact ⟨ix, _, hch, h1, h2, hchar, iff_of_false (by simp) hlt, (if_neg hlt).symm,
      sumAbsDiff_eq_specMetric _⟩

/-- Witness for C1 at a concrete 3-point trajectory. -/
theorem niterate_single_step_spec_witness :
    (3 ≤ 3 ∧ ([(0:ℝ), 1, 2].length = 3) ∧ ([(0:ℝ), 5, 10].length = 3) ∧ (0:ℝ) < 1) ∧
    (∃ ix r, chooseIdx 3 0 = some ix ∧ 1 ≤ ix ∧ ix ≤ 3 - 2 ∧
      niterate ⟨3, 1⟩ [0, 1, 2] [0, 5, 10] (fun _ => 1) 1 0 0 = some r ∧
      (r.changed = true ↔
        localLen (fun _ => 1) 1 [0, 1, 2]
            ([(0:ℝ), 5, 10].set ix ([(0:ℝ), 5, 10].getD ix 0 + 0 * 1)) ix
          < localLen (fun _ => 1) 1 [0, 1, 2] [0, 5, 10] ix) ∧
      r.y = (if localLen (fun _ => 1) 1 [0, 1, 2]
                  ([(0:ℝ), 5, 10].set ix ([(0:ℝ), 5, 10].getD ix 0 + 0 * 1)) ix
                < localLen (fun _ => 1) 1 [0, 1, 2] [0, 5, 10] ix
             then [(0:ℝ), 5, 10].set ix ([(0:ℝ), 5, 10].getD ix 0 + 0 * 1)
             else [0, 5, 10]) ∧
      r.metric = specMetric r.y) :=
  ⟨⟨by norm_num, by simp, by simp, by norm_num⟩,
    niterate_single_step_spec ⟨3, 1⟩ [0, 1, 2] [0, 5, 10] (fun _ => 1) 1 0 0
      (by norm_num) (by simp) (by simp) (by norm_num)⟩

theorem lt_length_of_get?_eq_some {α : Type*} {l : List α} {n : ℕ} {a : α}
    (h : l.get? n = some a) : n < l.length := by
  by_contra hge
  rw [List.get?_eq_none.mpr (Nat.le_of_not_lt hge)] at h
  exact Option.noConfusion h

/-- Inversion of a successful `niterate` call: the chosen index is interior,
the acceptance decision is by strict decrease of the local OPL, the `y`
array is updated exactly at the chosen index when accepted, and the
returned metric is the sum of neighboring differences of the returned
array. -/
theorem niterate_some_inv {g : Globals} {x y : List ℝ} {nf : ℝ → ℝ} {delta : ℝ}
    {u : ℕ} {gauss : ℝ} {r : StepResult}
    (h : niterate g x y nf delta u gauss = some r) :
    ∃ ix, chooseIdx g.N u = some ix ∧ 1 ≤ ix ∧ ix ≤ g.N - 2 ∧ ix + 1 < y.length ∧
      (r.changed = true ↔
        localLen nf g.dx x (y.set ix (y.getD ix 0 + gauss * delta)) ix
          < localLen nf g.dx x y ix) ∧
      r.y = (if r.changed = true then y.set ix (y.getD ix 0 + gauss * delta) else y) ∧
      r.metric = sumAbsDiff r.y := by
  cases hch : chooseIdx g.N u with
  | none => simp only [niterate, hch] at h; exact Option.noConfusion h
  | some ix =>
    obtain ⟨h1, h2⟩ := chooseIdx_bounds hch
    cases hxa : x.get? (ix - 1) with
    | none => simp only [niterate, hch, hxa] at h; exact Option.noConfusion h
    | some xa =>
      cases hxm : x.get? ix with
      | none => simp only [niterate, hch, hxa, hxm] at h; exact Option.noConfusion h
      | some xm =>
        cases hya : y.get? (ix - 1) with
        | none => simp only [niterate, hch, hxa, hxm, hya] at h; exact Option.noConfusion h
        | some ya =>
          cases hyc : y.get? ix with
          | none => simp only [niterate, hch, hxa, hxm, hya, hyc] at h; exact Option.noConfusion h
          | some yc =>
            cases hyb : y.get? (ix + 1) with
            | none =>
              simp only [niterate, hch, hxa, hxm, hya, hyc, hyb] at h
              exact Option.noConfusion h
            | some yb =>
              have hyb' : ix + 1 < y.length := lt_length_of_get?_eq_some hyb
              have hgetD : y.getD ix 0 = yc := by
                rw [List.getD_eq_getD_get?, hyc]; rfl
              have hset := get?_set_of_interior h1 (yc + gauss * delta) hyc
              have hLcur := localLen_eq nf g.dx x y hxa hxm hya hyc hyb
              have hLnew := localLen_eq nf g.dx x (y.set ix (yc + gauss * delta))
                hxa hxm (hset.1.trans hya) hset.2.1 (hset.2.2.trans hyb)
              rw [niterate_char g x y nf delta u gauss hch hxa hxm hya hyc hyb] at h
              split_ifs at h with hcond
              · obtain rfl : r = ⟨true, y.set ix (yc + gauss * delta),
                    sumAbsDiff (y.set ix (yc + gauss * delta))⟩ :=
                  (Option.some_inj.mp h).symm
                have hP : localLen nf g.dx x
                    (y.set ix (y.getD ix 0 + gauss * delta)) ix
                      < localLen nf g.dx x y ix := by
                  rw [hgetD, hLnew, hLcur]; exact hcond
                exact ⟨ix, rfl, h1, h2, hyb', iff_of_true rfl hP,
                  by rw [if_pos rfl, hgetD], rfl⟩
              · obtain rfl : r = ⟨false, y, sumAbsDiff y⟩ :=
                  (Option.some_inj.mp h).symm
                have hP : ¬ localLen nf g.dx x
                    (y.set ix (y.getD ix 0 + gauss * delta)) ix
                      < localLen nf g.dx x y ix := by
                  rw [hgetD, hLnew, hLcur]; exact hcond
                exact ⟨ix, rfl, h1, h2, hyb', iff_of_false (by simp) hP,
                  by simp, rfl⟩

/-- The driver's repeated in-place calls `niterate(x, y, nf, delta)`: the
state is the pair of arrays `(x, y)`; each list entry supplies the `delta`
passed and the two random draws of one call. `x` is never written. -/
noncomputable def runSteps (g : Globals) (nf : ℝ → ℝ) :
    List (ℝ × ℕ × ℝ) → List ℝ × List ℝ → Option (List ℝ × List ℝ)
  | [], s => some s
  | (delta, u, gauss) :: rest, s =>
    match niterate g s.1 s.2 nf delta u gauss with
    | none => none
    | some r => runSteps g nf rest (s.1, r.y)

theorem niterate_endpoints {g : Globals} {x y : List ℝ} {nf : ℝ → ℝ} {delta : ℝ}
    {u : ℕ} {gauss : ℝ} {r : StepResult}
    (h : niterate g x y nf delta u gauss = some r) :
    r.y.length = y.length ∧ r.y.get? 0 = y.get? 0 ∧
    r.y.get? (y.length - 1) = y.get? (y.length - 1) := by
  obtain ⟨ix, _, h1, _, hlt, _, hy, _⟩ := niterate_some_inv h
  by_cases hc : r.changed = true
  · rw [hy, if_pos hc]
    exact ⟨List.length_set _ _ _, List.get?_set_ne _ _ (by omega),
      List.get?_set_ne _ _ (by omega)⟩
  · rw [hy, if_neg hc]
    exact ⟨rfl, rfl, rfl⟩

theorem runSteps_preserves (g : Globals) (nf : ℝ → ℝ) :
    ∀ (steps : List (ℝ × ℕ × ℝ)) (x y : List ℝ) (s' : List ℝ × List ℝ),
      runSteps g nf steps (x, y) = some s' →
      s'.1 = x ∧ s'.2.length = y.length ∧ s'.2.get? 0 = y.get? 0 ∧
      s'.2.get? (y.length - 1) = y.get? (y.length - 1) := by
  intro steps
  induction steps with
  | nil =>
    intro x y s' h
    simp only [runSteps] at h
    obtain rfl := Option.some_inj.mp h
    exact ⟨rfl, rfl, rfl, rfl⟩
  | cons step rest ih =>
    intro x y s' h
    obtain ⟨delta, u, gauss⟩ := step
    cases hstep : niterate g x y nf delta u gauss with
    | none => simp only [runSteps, hstep] at h; exact Option.noConfusion h
    | some r =>
      simp only [runSteps, hstep] at h
      obtain ⟨hlen, h0, hlast⟩ := niterate_endpoints hstep
      obtain ⟨ih1, ih2, ih3, ih4⟩ := ih x r.y s' h
      rw [hlen] at ih4
      exact ⟨ih1, ih2.trans hlen, ih3.trans h0, ih4.trans hlast⟩

/-- C2: a `niterate` call modifies at most the single chosen interior
element `y[ix]` with `1 ≤ ix ≤ N-2`; when rejected the whole `y` array is
unchanged; and over any number of consecutive calls the `x` array and the
two endpoints of `y` keep their initial values. -/
theorem niterate_frame_invariance (g : Globals) (nf : ℝ → ℝ) :
    (∀ (x y : List ℝ) (delta : ℝ) (u : ℕ) (gauss : ℝ) (r : StepResult),
      niterate g x y nf delta u gauss = some r →
      ∃ ix, 1 ≤ ix ∧ ix ≤ g.N - 2 ∧
        (∀ j, j ≠ ix → r.y.get? j = y.get? j) ∧ r.y.length = y.length ∧
        (r.changed = false → r.y = y)) ∧
    (∀ (steps : List (ℝ × ℕ × ℝ)) (x y : List ℝ) (s' : List ℝ × List ℝ),
      runSteps g nf steps (x, y) = some s' →
      s'.1 = x ∧ s'.2.length = y.length ∧ s'.2.get? 0 = y.get? 0 ∧
      s'.2.get? (y.length - 1) = y.get? (y.length - 1)) := by
  constructor
  · intro x y delta u gauss r h
    obtain ⟨ix, _, h1, h2, _, _, hy, _⟩ := niterate_some_inv h
    refine ⟨ix, h1, h2, ?_, (niterate_endpoints h).1, ?_⟩
    · intro j hj
      rw [hy]
      by_cases hc : r.changed = true
      · rw [if_pos hc]
        exact List.get?_set_ne _ _ (Ne.symm hj)
      · rw [if_neg hc]
    · intro hc
      rw [hy, if_neg (by simp [hc])]
  · exact runSteps_preserves g nf

/-- Evaluation of one concrete rejected step (`gauss = 0` proposes the
unchanged value, so the new length equals the old one and is not strictly
smaller). -/
theorem niterate_concrete :
    niterate ⟨3, 1⟩ [0, 1, 2] [0, 5, 10] (fun _ => 1) 1 0 0 =
      some ⟨false, [0, 5, 10], 10⟩ := by
  have hch : chooseIdx 3 0 = some 1 := by decide
  have h := niterate_char ⟨3, 1⟩ [0, 1, 2] [0, 5, 10] (fun _ => 1) 1 0 0
    hch rfl rfl rfl rfl rfl
  rw [h, if_neg (by norm_num)]
  norm_num [sumAbsDiff]

/-- Witness for C2: the single-call frame property at a concrete call, and
the multi-call invariance at a concrete state. -/
theorem niterate_frame_invariance_witness :
    (∃ ix, 1 ≤ ix ∧ ix ≤ 3 - 2 ∧
      (∀ j, j ≠ ix → ([(0:ℝ), 5, 10] : List ℝ).get? j = [(0:ℝ), 5, 10].get? j) ∧
      ([(0:ℝ), 5, 10] : List ℝ).length = ([(0:ℝ), 5, 10] : List ℝ).length ∧
      (false = false → ([(0:ℝ), 5, 10] : List ℝ) = [(0:ℝ), 5, 10])) ∧
    (([(0:ℝ), 1, 2] : List ℝ) = [(0:ℝ), 1, 2] ∧
      ([(0:ℝ), 5, 10] : List ℝ).length = ([(0:ℝ), 5, 10] : List ℝ).length ∧
      ([(0:ℝ), 5, 10] : List ℝ).get? 0 = ([(0:ℝ), 5, 10] : List ℝ).get? 0 ∧
      ([(0:ℝ), 5, 10] : List ℝ).get? (([(0:ℝ), 5, 10] : List ℝ).length - 1) =
        ([(0:ℝ), 5, 10] : List ℝ).get? (([(0:ℝ), 5, 10] : List ℝ).length - 1)) :=
  ⟨(niterate_frame_invariance ⟨3, 1⟩ (fun _ => 1)).1 [0, 1, 2] [0, 5, 10] 1 0 0
      ⟨false, [0, 5, 10], 10⟩ niterate_concrete,
    (niterate_frame_invariance ⟨3, 1⟩ (fun _ => 1)).2 [] [0, 1, 2] [0, 5, 10]
      ([0, 1, 2], [0, 5, 10]) rfl⟩

/-- C3: after a `niterate` call the local optical path length at the
perturbed index is ≤ its value before the call: equal when the call
reports not accepted, strictly less when it reports accepted. -/
theorem niterate_nonworsening (g : Globals) (x y : List ℝ) (nf : ℝ → ℝ)
    (delta : ℝ) (u : ℕ) (gauss : ℝ) (ix : ℕ) (r : StepResult)
    (hch : chooseIdx g.N u = some ix)
    (h : niterate g x y nf delta u gauss = some r) :
    localLen nf g.dx x r.y ix ≤ localLen nf g.dx x y ix ∧
    (r.changed = false → localLen nf g.dx x r.y ix = localLen nf g.dx x y ix) ∧
    (r.changed = true → localLen nf g.dx x r.y ix < localLen nf g.dx x y ix) := by
  obtain ⟨ix', hch', h1, h2, _, hiff, hy, _⟩ := niterate_some_inv h
  obtain rfl : ix' = ix := Option.some_inj.mp (hch'.symm.trans hch)
  by_cases hc : r.changed = true
  · have hltP := hiff.mp hc
    have hry : r.y = y.set ix' (y.getD ix' 0 + gauss * delta) := by rw [hy, if_pos hc]
    rw [hry]
    exact ⟨le_of_lt hltP, fun hf => by simp [hf] at hc, fun _ => hltP⟩
  · have hry : r.y = y := by rw [hy, if_neg hc]
    rw [hry]
    exact ⟨le_refl _, fun _ => rfl, fun ht => absurd ht hc⟩

/-- Witness for C3 at the concrete rejected step. -/
theorem niterate_nonworsening_witness :
    localLen (fun _ => 1) 1 [0, 1, 2] [(0:ℝ), 5, 10] 1
        ≤ localLen (fun _ => 1) 1 [0, 1, 2] [(0:ℝ), 5, 10] 1 ∧
    (false = false → localLen (fun _ => 1) 1 [0, 1, 2] [(0:ℝ), 5, 10] 1
        = localLen (fun _ => 1) 1 [0, 1, 2] [(0:ℝ), 5, 10] 1) ∧
    (false = true → localLen (fun _ => 1) 1 [0, 1, 2] [(0:ℝ), 5, 10] 1
        < localLen (fun _ => 1) 1 [0, 1, 2] [(0:ℝ), 5, 10] 1) :=
  niterate_nonworsening ⟨3, 1⟩ [0, 1, 2] [0, 5, 10] (fun _ => 1) 1 0 0 1
    ⟨false, [0, 5, 10], 10⟩ (by decide) niterate_concrete

/-! ## The relaxation driver (source lines 148–164)

The driver state consists of the perturbation scale `delta`, the last and
previous progress-metric values `size` and `oldsize`, the iteration
counter `count` and the stagnation counter `dcount`. One loop-body
execution consumes the step outcome `(changed, newsize)` returned by
`niterate`; the step outcomes are abstracted as a trace/stream of oracle
values. -/

structure DriverState where
  delta : ℝ
  size : ℝ
  oldsize : ℝ
  count : ℕ
  dcount : ℕ

/-- One execution of the while-loop body (source lines 157–164), given the
step outcome `(changed, newsize)`. Mirrors the source statement order:
on acceptance `delta = 0.4*newsize/N`, then `oldsize = size`,
`size = newsize`, then `dcount += 1` when `oldsize - size < 1e-5`
(evaluated on the updated variables); `count += 1` unconditionally. -/
noncomputable def driverStep (N : ℕ) (st : DriverState) (changed : Bool)
    (newsize : ℝ) : DriverState :=
  if changed then
    let delta' := 0.4 * newsize / N
    let oldsize' := st.size
    let size' := newsize
    let dcount' := if oldsize' - size' < 1e-5 then st.dcount + 1 else st.dcount
    { delta := delta', size := size', oldsize := oldsize',
      count := st.count + 1, dcount := dcount' }
  else
    { st with count := st.count + 1 }

/-- The loop-body transition as the spec states it: if accepted, set
`delta = 0.4 * newsize / N`, compute `improvement = oldsize - newsize`
with `oldsize` the progress metric of the previous accepted step (the
current `size` field), increment the stagnation counter exactly when the
improvement is below `1e-5`, and shift `oldsize ← size`, `size ← newsize`;
if not accepted, change nothing except the iteration counter. -/
noncomputable def specDriverStep (N : ℕ) (st : DriverState) (accepted : Bool)
    (newsize : ℝ) : DriverState :=
  if accepted then
    let improvement := st.size - newsize
    { delta := 0.4 * newsize / N
      oldsize := st.size
      size := newsize
      count := st.count + 1
      dcount := st.dcount + (if improvement < 1e-5 then 1 else 0) }
  else
    { delta := st.delta, size := st.size, oldsize := st.oldsize,
      count := st.count + 1, dcount := st.dcount }

/-- C4: each loop-body execution is the state transition the spec
describes, on accepted and on rejected steps alike. -/
theorem driverStep_matches_spec (N : ℕ) (st : DriverState) (changed : Bool)
    (newsize : ℝ) :
    driverStep N st changed newsize = specDriverStep N st changed newsize := by
  cases changed with
  | false => rfl
  | true =>
    simp only [driverStep, specDriverStep, if_pos]
    split_ifs with h <;> rfl

theorem driverStep_count (N : ℕ) (st : DriverState) (c : Bool) (s : ℝ) :
    (driverStep N st c s).count = st.count + 1 := by
  cases c <;> simp [driverStep]

/-- The driver state after folding a whole trace of step outcomes. -/
noncomputable def runTrace (N : ℕ) : List (Bool × ℝ) → DriverState → DriverState
  | [], st => st
  | (c, s) :: tr, st => runTrace N tr (driverStep N st c s)

/-- Number of accepted steps in a trace whose improvement, measured
against the driver state at the time of the step, is below `1e-5`. -/
noncomputable def smallImprovementCount (N : ℕ) :
    List (Bool × ℝ) → DriverState → ℕ
  | [], _ => 0
  | (c, s) :: tr, st =>
    (if c = true ∧ st.size - s < 1e-5 then 1 else 0)
      + smallImprovementCount N tr (driverStep N st c s)

/-- C5: `dcount` is incremented by 1 exactly on accepted steps whose
improvement is below `1e-5`, is never decremented or reset, and hence
after any trace equals its initial value plus the cumulative number of
small-improvement accepted steps; it is monotone over the run. -/
theorem dcount_cumulative (N : ℕ) :
    (∀ (st : DriverState) (c : Bool) (s : ℝ),
      (driverStep N st c s).dcount =
        st.dcount + (if c = true ∧ st.size - s < 1e-5 then 1 else 0)) ∧
    (∀ (tr : List (Bool × ℝ)) (st : DriverState),
      (runTrace N tr st).dcount = st.dcount + smallImprovementCount N tr st) ∧
    (∀ (tr : List (Bool × ℝ)) (st : DriverState),
      st.dcount ≤ (runTrace N tr st).dcount) := by
  have hstep : ∀ (st : DriverState) (c : Bool) (s : ℝ),
      (driverStep N st c s).dcount =
        st.dcount + (if c = true ∧ st.size - s < 1e-5 then 1 else 0) := by
    intro st c s
    cases c with
    | false => simp [driverStep]
    | true =>
      simp only [driverStep, if_pos]
      split_ifs with h h' h' <;> simp_all
  have hrun : ∀ (tr : List (Bool × ℝ)) (st : DriverState),
      (runTrace N tr st).dcount = st.dcount + smallImprovementCount N tr st := by
    intro tr
    induction tr with
    | nil => intro st; simp [runTrace, smallImprovementCount]
    | cons p tr ih =>
      intro st
      obtain ⟨c, s⟩ := p
      simp only [runTrace, smallImprovementCount]
      rw [ih, hstep]
      omega
  refine ⟨hstep, hrun, fun tr st => ?_⟩
  rw [hrun]
  exact Nat.le_add_right _ _

/-- The while-loop guard (source line 156):
`(dcount < 0.2*iterlimit) and (count < iterlimit)`. -/
noncomputable def loopGuard (iterlimit : ℕ) (st : DriverState) : Prop :=
  (st.dcount : ℝ) < 0.2 * (iterlimit : ℝ) ∧ st.count < iterlimit

/-- The driver state after `k` executions of the loop body, the step
outcomes being supplied by the oracle stream. -/
noncomputable def stateAt (N : ℕ) (stream : ℕ → Bool × ℝ) (st0 : DriverState) :
    ℕ → DriverState
  | 0 => st0
  | k + 1 => driverStep N (stateAt N stream st0 k) (stream k).1 (stream k).2

theorem stateAt_count (N : ℕ) (stream : ℕ → Bool × ℝ) (st0 : DriverState) :
    ∀ k, (stateAt N stream st0 k).count = st0.count + k := by
  intro k
  induction k with
  | zero => simp [stateAt]
  | succ n ih => rw [stateAt, driverStep_count, ih, Nat.add_assoc]

/-- C6: with the initial counters at zero and `iteration_cap > 0`, the
guard holds initially (the first iteration always runs), the guard is
exactly `dcount < 0.2*cap ∧ count < cap`, `count` increases by 1 every
iteration, and the guard fails after at most `cap` iterations, whatever
the step outcomes are. -/
theorem relaxation_terminates (N : ℕ) (stream : ℕ → Bool × ℝ)
    (st0 : DriverState) (cap : ℕ)
    (hcap : 0 < cap) (hc0 : st0.count = 0) (hd0 : st0.dcount = 0) :
    loopGuard cap st0 ∧
    (∀ st : DriverState, loopGuard cap st ↔
      ((st.dcount : ℝ) < 0.2 * (cap : ℝ) ∧ st.count < cap)) ∧
    (∀ k, (stateAt N stream st0 k).count = k) ∧
    (∃ k, k ≤ cap ∧ ¬ loopGuard cap (stateAt N stream st0 k)) := by
  have hcapR : (1 : ℝ) ≤ (cap : ℝ) := by exact_mod_cast hcap
  refine ⟨⟨?_, ?_⟩, fun st => Iff.rfl, ?_, ⟨cap, le_refl cap, ?_⟩⟩
  · rw [hd0]
    push_cast
    nlinarith
  · rw [hc0]; exact hcap
  · intro k
    rw [stateAt_count, hc0, Nat.zero_add]
  · intro hg
    have := hg.2
    rw [stateAt_count, hc0, Nat.zero_add] at this
    exact absurd this (lt_irrefl cap)

/-- Witness for C6 with `cap = 1` and a stream of rejected steps. -/
theorem relaxation_terminates_witness :
    (0 < 1 ∧ (DriverState.mk 1 0 0 0 0).count = 0 ∧
      (DriverState.mk 1 0 0 0 0).dcount = 0) ∧
    (loopGuard 1 ⟨1, 0, 0, 0, 0⟩ ∧
    (∀ st : DriverState, loopGuard 1 st ↔
      ((st.dcount : ℝ) < 0.2 * ((1 : ℕ) : ℝ) ∧ st.count < 1)) ∧
    (∀ k, (stateAt 15 (fun _ => (false, 0)) ⟨1, 0, 0, 0, 0⟩ k).count = k) ∧
    (∃ k, k ≤ 1 ∧ ¬ loopGuard 1 (stateAt 15 (fun _ => (false, 0)) ⟨1, 0, 0, 0, 0⟩ k))) :=
  ⟨⟨by decide, rfl, rfl⟩,
    relaxation_terminates 15 (fun _ => (false, 0)) ⟨1, 0, 0, 0, 0⟩ 1
      (by decide) rfl rfl⟩

/-! ## The measurement block (source lines 173–178) -/

/-- `.max()` of a list of indices; `none` models the `ValueError` numpy
raises when reducing an empty array. -/
def maxNat : List ℕ → Option ℕ
  | [] => none
  | a :: l =>
    match maxNat l with
    | none => some a
    | some b => some (max a b)

/-- `where(x<=xb)[0].max()` (source line 173): the largest index whose `x`
value is at or before the interface. -/
noncomputable def interfaceIdx (x : List ℝ) (xb : ℝ) : Option ℕ :=
  maxNat ((List.range x.length).filter (fun i => decide (x.getD i 0 ≤ xb)))

/-- The measurement block: locate the interface index, read `y` there and
compute the incidence angle, refraction angle, theoretical (Snell) angle
and percent error (source lines 173–178). The input arrays are only read;
they are returned untouched alongside the four values. `error` models the
exception raised by `.max()` on an empty index set (or an out-of-range
`y[ix]`). -/
noncomputable def measureBlock (x y : List ℝ) (xb na nb xf yf : ℝ) :
    Except String ((List ℝ × List ℝ) × (ℝ × ℝ × ℝ × ℝ)) :=
  match interfaceIdx x xb with
  | none => .error "ValueError: zero-size array to reduction operation maximum"
  | some ix =>
    match y.get? ix with
    | none => .error "IndexError: index out of bounds"
    | some yi =>
      let thetai := Real.arctan (yi / xb)
      let thetar := Real.arctan ((yf - yi) / (xf - xb))
      let thetarTh := Real.arcsin (na * Real.sin thetai / nb)
      let pctErr := |100 * (thetarTh - thetar) / thetarTh|
      .ok ((x, y), (thetai, thetar, thetarTh, pctErr))

/-- The four measured quantities as the spec states them, in terms of the
trajectory contents: incidence `arctan(y_ix/boundary_x)`, refraction
`arctan((y_end - y_ix)/(x_end - boundary_x))`, theoretical
`arcsin(index_left*sin(incidence)/index_right)`, and percent error
`|100*(theoretical - measured)/theoretical|`. -/
noncomputable def specMeasure (x y : List ℝ) (xb na nb : ℝ) (ix : ℕ) :
    ℝ × ℝ × ℝ × ℝ :=
  let yix := y.getD ix 0
  let yEnd := y.getD (y.length - 1) 0
  let xEnd := x.getD (x.length - 1) 0
  let fi := Real.arctan (yix / xb)
  let fr := Real.arctan ((yEnd - yix) / (xEnd - xb))
  let fth := Real.arcsin (na * Real.sin fi / nb)
  (fi, fr, fth, |100 * (fth - fr) / fth|)

theorem maxNat_eq_none {l : List ℕ} : maxNat l = none ↔ l = [] := by
  cases l with
  | nil => simp [maxNat]
  | cons a t => cases hm : maxNat t <;> simp [maxNat, hm]

theorem maxNat_mem : ∀ {l : List ℕ} {a : ℕ}, maxNat l = some a → a ∈ l := by
  intro l
  induction l with
  | nil => intro a h; exact Option.noConfusion h
  | cons b t ih =>
    intro a h
    cases hm : maxNat t with
    | none =>
      simp only [maxNat, hm] at h
      obtain rfl := Option.some_inj.mp h
      exact List.mem_cons_self _ _
    | some c =>
      simp only [maxNat, hm] at h
      obtain rfl := Option.some_inj.mp h
      rcases le_total b c with hbc | hcb
      · rw [max_eq_right hbc]; exact List.mem_cons_of_mem _ (ih hm)
      · rw [max_eq_left hcb]; exact List.mem_cons_self _ _

theorem maxNat_ge : ∀ {l : List ℕ} {a : ℕ}, maxNat l = some a →
    ∀ b ∈ l, b ≤ a := by
  intro l
  induction l with
  | nil => intro a _ b hb; simp at hb
  | cons c t ih =>
    intro a h b hb
    cases hm : maxNat t with
    | none =>
      obtain rfl := maxNat_eq_none.mp hm
      simp only [maxNat, hm] at h
      obtain rfl := Option.some_inj.mp h
      rcases List.mem_cons.mp hb with rfl | hbt
      · exact le_refl _
      · simp at hbt
    | some d =>
      simp only [maxNat, hm] at h
      obtain rfl := Option.some_inj.mp h
      rcases List.mem_cons.mp hb with rfl | hbt
      · exact le_max_left _ _
      · exact le_trans (ih hm _ hbt) (le_max_right _ _)

/-- Inversion of a successful interface search: the found index is in
range, satisfies `x_ix ≤ xb`, and is the largest such index. -/
theorem interfaceIdx_spec {x : List ℝ} {xb : ℝ} {ix : ℕ}
    (h : interfaceIdx x xb = some ix) :
    ix < x.length ∧ x.getD ix 0 ≤ xb ∧
    ∀ j, j < x.length → x.getD j 0 ≤ xb → j ≤ ix := by
  unfold interfaceIdx at h
  have hmem := maxNat_mem h
  rw [List.mem_filter, List.mem_range] at hmem
  obtain ⟨hlt, hp⟩ := hmem
  refine ⟨hlt, of_decide_eq_true hp, fun j hj hjle => maxNat_ge h j ?_⟩
  rw [List.mem_filter, List.mem_range]
  exact ⟨hj, decide_eq_true hjle⟩

/-- C7: when the interface search finds `ix` and the trajectory endpoints
carry the configured boundary values (`y_end = yf`, `x_end = xf`), the
measurement block returns, without modifying the arrays, exactly the four
spec quantities computed at `ix`, and `ix` is the largest index with
`x_ix ≤ boundary_x`. -/
theorem measurement_formulas (x y : List ℝ) (xb na nb xf yf : ℝ) (ix : ℕ)
    (yi : ℝ) (hix : interfaceIdx x xb = some ix) (hyi : y.get? ix = some yi)
    (hyEnd : y.getD (y.length - 1) 0 = yf) (hxEnd : x.getD (x.length - 1) 0 = xf) :
    measureBlock x y xb na nb xf yf =
      Except.ok ((x, y), specMeasure x y xb na nb ix) ∧
    (ix < x.length ∧ x.getD ix 0 ≤ xb ∧
      ∀ j, j < x.length → x.getD j 0 ≤ xb → j ≤ ix) := by
  have hgetD : y.getD ix 0 = yi := by rw [List.getD_eq_getD_get?, hyi]; rfl
  refine ⟨?_, interfaceIdx_spec hix⟩
  simp only [measureBlock, hix, hyi, specMeasure]
  rw [hgetD, hyEnd, hxEnd]

/-- Witness for C7 at a concrete three-point trajectory with the interface
at `x = 1`. -/
theorem measurement_formulas_witness :
    (interfaceIdx [(0:ℝ), 1, 2] 1 = some 1 ∧
      ([(0:ℝ), 0, 2] : List ℝ).get? 1 = some 0 ∧
      ([(0:ℝ), 0, 2] : List ℝ).getD (([(0:ℝ), 0, 2] : List ℝ).length - 1) 0 = 2 ∧
      ([(0:ℝ), 1, 2] : List ℝ).getD (([(0:ℝ), 1, 2] : List ℝ).length - 1) 0 = 2) ∧
    (measureBlock [0, 1, 2] [0, 0, 2] 1 1 1 2 2 =
      Except.ok (([0, 1, 2], [0, 0, 2]), specMeasure [0, 1, 2] [0, 0, 2] 1 1 1 1) ∧
    (1 < ([(0:ℝ), 1, 2] : List ℝ).length ∧ ([(0:ℝ), 1, 2] : List ℝ).getD 1 0 ≤ 1 ∧
      ∀ j, j < ([(0:ℝ), 1, 2] : List ℝ).length →
        ([(0:ℝ), 1, 2] : List ℝ).getD j 0 ≤ 1 → j ≤ 1)) :=
  have hix : interfaceIdx [(0:ℝ), 1, 2] 1 = some 1 := by
    unfold interfaceIdx
    norm_num [List.filter, maxNat]
  ⟨⟨hix, rfl, rfl, rfl⟩,
    measurement_formulas [0, 1, 2] [0, 0, 2] 1 1 1 2 2 1 0 hix rfl rfl rfl⟩

/-- C9 counterexample: a degenerate measurement input with a zero
denominator (`boundary_x = x_end = 10`, so `x_end - boundary_x = 0` in the
refraction angle) is NOT surfaced as an error: the measurement block
completes and reports values. -/
theorem measurement_zero_denominator_no_error :
    (measureBlock [(0:ℝ), 5, 10] [0, 5, 10] 10 1 1.5 10 10).isOk = true := by
  have hix : interfaceIdx [(0:ℝ), 5, 10] 10 = some 2 := by
    unfold interfaceIdx
    norm_num [List.filter, maxNat]
  simp only [measureBlock, hix]
  rfl

/-- C9 amended: when no index satisfies `x_i ≤ boundary_x` the interface
search fails and the measurement block reports an error (the raised
`ValueError`), leaving the arrays untouched; but zero denominators in the
angle computations are never detected: whenever the interface search
succeeds the measurement completes without any reported error. -/
theorem measurement_error_reporting (x y : List ℝ) (xb na nb xf yf : ℝ) :
    ((∀ i, i < x.length → ¬ x.getD i 0 ≤ xb) → interfaceIdx x xb = none) ∧
    (interfaceIdx x xb = none →
      measureBlock x y xb na nb xf yf =
        Except.error "ValueError: zero-size array to reduction operation maximum") ∧
    (∀ ix yi, interfaceIdx x xb = some ix → y.get? ix = some yi →
      (measureBlock x y xb na nb xf yf).isOk = true) := by
  refine ⟨?_, ?_, ?_⟩
  · intro hall
    unfold interfaceIdx
    rw [maxNat_eq_none, List.filter_eq_nil]
    intro a ha
    rw [List.mem_range] at ha
    simpa using hall a ha
  · intro hnone
    simp only [measureBlock, hnone]
  · intro ix yi hix hyi
    simp only [measureBlock, hix, hyi]
    rfl

/-- Witness for the amended C9: with the boundary below the whole domain
the search finds no index and an error is reported. -/
theorem measurement_error_reporting_witness :
    interfaceIdx [(0:ℝ), 5, 10] (-1) = none ∧
    measureBlock [(0:ℝ), 5, 10] [0, 5, 10] (-1) 1 1.5 10 10 =
      Except.error "ValueError: zero-size array to reduction operation maximum" :=
  have hnone : interfaceIdx [(0:ℝ), 5, 10] (-1) = none := by
    unfold interfaceIdx
    norm_num [List.filter, maxNat]
  ⟨hnone,
    (measurement_error_reporting [0, 5, 10] [0, 5, 10] (-1) 1 1.5 10 10).2.1 hnone⟩

/-! ## Initialization / setup (source lines 51–62, 115–122, 148–154) -/

/-- The externally supplied configuration constants. -/
structure Config where
  N : ℕ
  x0 : ℝ
  xf : ℝ
  y0 : ℝ
  yf : ℝ
  delta : ℝ
  iterlimit : ℤ

/-- `linspace(a, b, n)`: `n` equally spaced points from `a` to `b`. -/
noncomputable def linspace (a b : ℝ) (n : ℕ) : List ℝ :=
  (List.range n).map (fun i => a + (b - a) * i / ((n : ℝ) - 1))

/-- `y[1:-1] = y0 + (yf-y0)*rand(N-2)` (source line 117): overwrite the
`N-2` interior entries with randomized values from the oracle stream. -/
noncomputable def setInterior (yInit : List ℝ) (y0 yf : ℝ) (N : ℕ)
    (rands : ℕ → ℝ) : List ℝ :=
  (List.range (N - 2)).foldl (fun acc j => acc.set (j + 1) (y0 + (yf - y0) * rands j)) yInit

/-- The module state produced by initialization. -/
structure SetupSt where
  x : List ℝ
  y : List ℝ
  dx : ℝ
  xb : ℝ
  delta : ℝ
  count : ℕ
  dcount : ℕ
  iterlimit : ℤ

/-- The initialization of the program (source lines 51–62 and 115–122 and
148–154), faithful to where the code can raise: `y[0] = y0` raises for
`N = 0` and `dx = x[1]-x[0]` raises for `N = 1`; nothing else in setup can
fail, and no configuration constraint is ever checked. -/
noncomputable def setupE (cfg : Config) (rands : ℕ → ℝ) : Except String SetupSt :=
  if cfg.N = 0 then .error "IndexError: index 0 is out of bounds"
  else if cfg.N = 1 then .error "IndexError: index 1 is out of bounds"
  else
    let x := linspace cfg.x0 cfg.xf cfg.N
    let yz := ((List.replicate cfg.N (0 : ℝ)).set 0 cfg.y0).set (cfg.N - 1) cfg.yf
    let dx := x.getD 1 0 - x.getD 0 0
    let y := setInterior yz cfg.y0 cfg.yf cfg.N rands
    let xb := (cfg.x0 + cfg.xf) / 2
    .ok ⟨x, y, dx, xb, cfg.delta, 0, 0, cfg.iterlimit⟩

/-- C8 counterexample: the configuration `N=15, x0=0, xf=10, y0=0, yf=10,
delta=0, iterlimit=100000` is invalid per the claim (`delta ≤ 0`), yet
setup completes with no diagnostic at all. -/
theorem setup_accepts_invalid_config :
    (setupE ⟨15, 0, 10, 0, 10, 0, 100000⟩ (fun _ => 0)).isOk = true := by
  rfl

/-- C8 amended: the program performs no configuration validation. For
every `N ≥ 2` setup succeeds with no diagnostic, regardless of
`x0 ≥ xf`, `delta ≤ 0` or `iteration_cap ≤ 0`; `N ≤ 1` fails with a
generic index error (not a named-constraint diagnostic); and for `N < 3`
the failure surfaces only at the first step call, whose interior-index
choice is empty. -/
theorem setup_validation_behavior (cfg : Config) (rands : ℕ → ℝ) :
    (2 ≤ cfg.N → (setupE cfg rands).isOk = true) ∧
    (cfg.N < 2 → (setupE cfg rands).isOk = false) ∧
    (∀ u, cfg.N < 3 → chooseIdx cfg.N u = none) := by
  refine ⟨?_, ?_, fun u h => chooseIdx_none h u⟩
  · intro h
    unfold setupE
    rw [if_neg (by omega), if_neg (by omega)]
    rfl
  · intro h
    unfold setupE
    by_cases h0 : cfg.N = 0
    · rw [if_pos h0]; rfl
    · rw [if_neg h0, if_pos (by omega)]; rfl

/-- Witness for the amended C8: an invalid configuration with `N = 15`,
`x0 > xf`, `delta < 0` and `iteration_cap = 0` still sets up successfully;
`N = 1` fails only with the generic index error; `N = 2` makes the first
step call fail on the empty choice. -/
theorem setup_validation_behavior_witness :
    (2 ≤ (15:ℕ) ∧ (setupE ⟨15, 10, 0, 0, 10, -1, 0⟩ (fun _ => 0)).isOk = true) ∧
    ((1:ℕ) < 2 ∧ (setupE ⟨1, 0, 10, 0, 10, 1, 100⟩ (fun _ => 0)).isOk = false) ∧
    ((2:ℕ) < 3 ∧ chooseIdx 2 0 = none) :=
  ⟨⟨by decide, (setup_validation_behavior ⟨15, 10, 0, 0, 10, -1, 0⟩ (fun _ => 0)).1
      (by decide)⟩,
   ⟨by decide, (setup_validation_behavior ⟨1, 0, 10, 0, 10, 1, 100⟩ (fun _ => 0)).2.1
      (by decide)⟩,
   ⟨by decide, (setup_validation_behavior ⟨2, 0, 10, 0, 10, 1, 100⟩ (fun _ => 0)).2.2 0
      (by decide)⟩⟩

/-- C10: `niterate` draws its index range and spacing from the module
globals, not from its array arguments; it is exception-free exactly under
the implicit precondition that the arrays have length `N`. With matching
lengths every call succeeds; with `y` shorter than the global `N` the
3-element read `y[ix-1:ix+2]` fails for a drawable index, while the very
same arrays succeed under a matching global `N`. -/
theorem niterate_globals_dependence :
    (∀ (g : Globals) (x y : List ℝ) (nf : ℝ → ℝ) (delta : ℝ) (u : ℕ) (gauss : ℝ),
      3 ≤ g.N → x.length = g.N → y.length = g.N →
      (niterate g x y nf delta u gauss).isSome = true) ∧
    niterate ⟨5, 1⟩ [0, 1, 2, 3, 4] [0, 1, 2, 3] (fun _ => 1) 1 2 0 = none ∧
    (niterate ⟨4, 1⟩ [0, 1, 2, 3] [0, 1, 2, 3] (fun _ => 1) 1 2 0).isSome = true := by
  refine ⟨?_, rfl, ?_⟩
  · intro g x y nf delta u gauss hN hx hy
    obtain ⟨ix, hch⟩ := Option.isSome_iff_exists.mp (chooseIdx_isSome hN u)
    obtain ⟨h1, h2⟩ := chooseIdx_bounds hch
    have hxa := List.get?_eq_get (show ix - 1 < x.length by omega)
    have hxm := List.get?_eq_get (show ix < x.length by omega)
    have hya := List.get?_eq_get (show ix - 1 < y.length by omega)
    have hyc := List.get?_eq_get (show ix < y.length by omega)
    have hyb := List.get?_eq_get (show ix + 1 < y.length by omega)
    rw [niterate_char g x y nf delta u gauss hch hxa hxm hya hyc hyb]
    split <;> rfl
  · have hch : chooseIdx 4 2 = some 1 := by decide
    rw [niterate_char ⟨4, 1⟩ [0, 1, 2, 3] [0, 1, 2, 3] (fun _ => 1) 1 2 0
      hch rfl rfl rfl rfl rfl]
    split <;> rfl

/-- Witness for C10 at a concrete matching-length call. -/
theorem niterate_globals_dependence_witness :
    3 ≤ (3:ℕ) ∧ ([(0:ℝ), 1, 2] : List ℝ).length = 3 ∧
    ([(0:ℝ), 5, 10] : List ℝ).length = 3 ∧
    (niterate ⟨3, 1⟩ [0, 1, 2] [0, 5, 10] (fun _ => 1) 1 0 0).isSome = true :=
  ⟨by decide, rfl, rfl,
    niterate_globals_dependence.1 ⟨3, 1⟩ [0, 1, 2] [0, 5, 10] (fun _ => 1) 1 0 0
      (by decide) rfl rfl⟩

end MCOptics
